import Mathlib

/-!
Verification of the red-black tree implementation in
`src/Red-Black-Tree-App.cpp` (class `RedBlackTree<T>`).

The C++ code is a pointer structure: each `Node` holds `data`, `color`,
and `parent`/`left`/`right` pointers, and the tree owns a `root` pointer.
We model it with an inductive tree (`Node`) plus an explicit path context
(`Frame` list, a zipper): the focused subtree corresponds to the node the
C++ variable `x` points at, and the frame list encodes the chain of
parent pointers up to the root, each frame recording on which side the
focus hangs, the parent's color and key, and the sibling subtree.
Re-assembling the full tree (`plug`) is exactly following the parent
chain to the root.

Null-pointer dereferences in the C++ (reading `x->parent->parent->left`
when the grandparent is absent, or promoting `x->right` / `x->left`
inside a rotation when that child is absent) are modeled by `Option`:
`none` means the C++ would have dereferenced a null pointer.

The fixup loop (`fixInsertion`) re-checks its condition after the
Case-2/Case-3 branch; that re-check necessarily fails there because the
branch has just colored the focus's new parent BLACK, so the embedding
returns the final tree directly in that branch (one unrolling of a loop
iteration that provably exits).
-/

namespace RBTApp

/-- Colors of the nodes, as in the C++ `enum class Color`. -/
inductive Color where
  | RED
  | BLACK
deriving DecidableEq, Repr

open Color

/-- A red-black tree node structure. `nil` is the C++ null pointer
(an absent child, counting as a BLACK leaf); `node` holds the color,
left child, key (`data` in the C++) and right child. Parent pointers
are represented by the zipper context (`Frame`), not stored here. -/
inductive Node (α : Type) where
  | nil
  | node (color : Color) (l : Node α) (key : α) (r : Node α)
deriving DecidableEq, Repr

namespace Node

variable {α : Type}

/-- Color of the node a pointer designates: a null pointer counts as
BLACK (`getDataAndColor` prints `NULL(BLACK)` for it). -/
def rootCol : Node α → Color
  | nil => BLACK
  | node c _ _ _ => c

/-- Set the color of the pointed-to node to BLACK (`p->color = BLACK`
in the C++, a no-op on a null pointer). -/
def blackenRoot : Node α → Node α
  | nil => nil
  | node _ l k r => node BLACK l k r

/-- In-order key sequence of a tree. This is the sequence invariant 5
of the spec speaks about. -/
def inorder : Node α → List α
  | nil => []
  | node _ l k r => inorder l ++ k :: inorder r

/-- In-order sequence of (key, color) pairs. Used to state that the
rotations move no key past another and never touch a color. -/
def inorderPairs : Node α → List (α × Color)
  | nil => []
  | node c l k r => inorderPairs l ++ (k, c) :: inorderPairs r

/-- The traversal the C++ `inorderPrint`/`print` pair actually performs:
despite its name it emits the (key, color) pair of a node BEFORE its
children (`cout << getDataAndColor(pn)` first, then the two recursive
calls), i.e. a pre-order production. -/
def inorderPrint : Node α → List (α × Color)
  | nil => []
  | node c l k r => (k, c) :: (inorderPrint l ++ inorderPrint r)

/-- Number of stored keys. -/
def size : Node α → Nat
  | nil => 0
  | node _ l _ r => size l + size r + 1

/-- Height: number of nodes on the longest root-to-leaf path. -/
def height : Node α → Nat
  | nil => 0
  | node _ l _ r => max (height l) (height r) + 1

/-- Invariant 3 of the spec: no RED node has a RED child (absent
children are BLACK). -/
def noRR : Node α → Prop
  | nil => True
  | node c l _ r => (c = RED → rootCol l = BLACK ∧ rootCol r = BLACK) ∧ noRR l ∧ noRR r

instance noRRDec : (t : Node α) → Decidable (noRR t)
  | nil => .isTrue trivial
  | node c l k r =>
      letI := noRRDec l
      letI := noRRDec r
      decidable_of_iff ((c = RED → rootCol l = BLACK ∧ rootCol r = BLACK) ∧ noRR l ∧ noRR r)
        Iff.rfl

/-- Contribution of a node color to the black-height of a path. -/
def bInc (c : Color) : Nat :=
  match c with
  | BLACK => 1
  | RED => 0

/-- Invariant 4 of the spec, as a partial black-height computation:
`some m` when every path from the root to an absent-child position
passes the same number `m` of BLACK nodes (counting the absent child
itself, which is BLACK); `none` when two paths disagree. -/
def bhv : Node α → Option Nat
  | nil => some 1
  | node c l _ r =>
      match bhv l, bhv r with
      | some m, some n => if m = n then some (m + bInc c) else none
      | _, _ => none

/-- Side on which the focused subtree hangs from its parent. -/
inductive Dir where
  | left
  | right
deriving DecidableEq, Repr

/-- One step of the parent-pointer chain: the focus is the `dir` child
of a parent with the given color and key whose other child is `other`. -/
structure Frame (α : Type) where
  dir : Dir
  color : Color
  key : α
  other : Node α
deriving DecidableEq, Repr

/-- Rebuild the parent node from a frame and the subtree in focus. -/
def assemble (f : Frame α) (t : Node α) : Node α :=
  match f.dir with
  | Dir.left => node f.color t f.key f.other
  | Dir.right => node f.color f.other f.key t

/-- Rebuild the parent node with its color overridden (a recoloring of
the parent performed through `x->parent->color = ...`). -/
def assembleC (f : Frame α) (c : Color) (t : Node α) : Node α :=
  match f.dir with
  | Dir.left => node c t f.key f.other
  | Dir.right => node c f.other f.key t

/-- Follow the parent chain all the way up: the whole tree whose root
the C++ `root` pointer designates. -/
def plug : Node α → List (Frame α) → Node α
  | t, [] => t
  | t, f :: rest => plug (assemble f t) rest

/-- The placement loop of `RedBlackTree::insert`: walk from the root,
descending left exactly when `val < current->data` and right otherwise,
recording each visited parent as a frame, until reaching an absent
child position. Returns the parent chain of that position. -/
def descend [LinearOrder α] : Node α → α → List (Frame α) → List (Frame α)
  | nil, _, acc => acc
  | node c l k r, v, acc =>
      if v < k then descend l v (⟨Dir.left, c, k, r⟩ :: acc)
      else descend r v (⟨Dir.right, c, k, l⟩ :: acc)

/-- `RedBlackTree::rotateLeft` acting on the subtree rooted at its
argument `x`: promotes `y = x->right` to `x`'s position, `y`'s former
left subtree becomes `x`'s right subtree, `x` becomes `y`'s left child.
Colors travel with their nodes — the rotation touches no color. The
re-linking of `x`'s former parent (or of `root`) is the zipper context
keeping the result at the same position. `none` models the unguarded
`y->left` access when `x` or `x->right` is a null pointer. -/
def rotateLeft : Node α → Option (Node α)
  | node cx a kx (node cy b ky c) => some (node cy (node cx a kx b) ky c)
  | _ => none

/-- `RedBlackTree::rotateRight`, mirror of `rotateLeft` over `x->left`. -/
def rotateRight : Node α → Option (Node α)
  | node cx (node cy a ky b) kx c => some (node cy a ky (node cx b kx c))
  | _ => none

/-- `RedBlackTree::fixInsertion`. The focus is the node `x`, the frame
list its parent chain. Loop condition `x != root && x->parent->color == RED`:
an empty chain means `x == root`, a BLACK head frame means the parent is
BLACK — both exit the loop, and `root->color = BLACK` is then applied to
the re-assembled tree. Otherwise the parent is RED: if it has no parent,
the C++ dereferences the null grandparent (`none`); else the two
mirror-symmetric branches apply. Case 1 (RED uncle): recolor parent and
uncle BLACK and grandparent RED, and continue from the grandparent.
Cases 2/3 (BLACK or absent uncle): possibly rotate at the parent to
straighten the path, recolor the (new) parent BLACK and the grandparent
RED, rotate at the grandparent, and return — the re-checked loop
condition necessarily fails because the focus's parent has just been
colored BLACK. -/
def fixInsertion : Node α → List (Frame α) → Option (Node α)
  | x, [] => some (blackenRoot x)
  | x, pf :: rest =>
    match pf.color with
    | BLACK => some (blackenRoot (plug x (pf :: rest)))
    | RED =>
      match rest with
      | [] => none
      | gf :: rest2 =>
        match gf.dir with
        | Dir.left =>
          match gf.other with
          | node RED ul uk ur =>
              fixInsertion (node RED (assembleC pf BLACK x) gf.key (node BLACK ul uk ur)) rest2
          | _ =>
              match (if pf.dir = Dir.right
                     then (rotateLeft (assemble pf x)).map blackenRoot
                     else some (assembleC pf BLACK x)) with
              | none => none
              | some psub =>
                match rotateRight (node RED psub gf.key gf.other) with
                | none => none
                | some g2 => some (blackenRoot (plug g2 rest2))
        | Dir.right =>
          match gf.other with
          | node RED ul uk ur =>
              fixInsertion (node RED (node BLACK ul uk ur) gf.key (assembleC pf BLACK x)) rest2
          | _ =>
              match (if pf.dir = Dir.left
                     then (rotateRight (assemble pf x)).map blackenRoot
                     else some (assembleC pf BLACK x)) with
              | none => none
              | some psub =>
                match rotateLeft (node RED gf.other gf.key psub) with
                | none => none
                | some g2 => some (blackenRoot (plug g2 rest2))

/-- Number of iterations the fixup loop executes (same recursion
structure as `fixInsertion`, whose control flow — apart from the crash
propagation — depends only on the parent chain: a loop exit or a crash
contributes no further iterations, a Case-1 iteration continues two
levels up, and the Case-2/3 branch is a single final iteration). -/
def fixIters : List (Frame α) → Nat
  | [] => 0
  | pf :: rest =>
    match pf.color with
    | BLACK => 0
    | RED =>
      match rest with
      | [] => 0
      | gf :: rest2 =>
        match gf.other with
        | node RED _ _ _ => 1 + fixIters rest2
        | _ => 1

/-- `RedBlackTree::insert`. An empty tree receives the new node as a
BLACK root directly; otherwise the new node is wired RED at the absent
position found by the placement walk, and `fixInsertion` repairs the
tree. -/
def insert [LinearOrder α] (t : Node α) (v : α) : Option (Node α) :=
  match t with
  | nil => some (node BLACK nil v nil)
  | node _ _ _ _ => fixInsertion (node RED nil v nil) (descend t v [])

/-- Insert a list of keys in order, starting from the given tree. -/
def insertAllFrom [LinearOrder α] : Node α → List α → Option (Node α)
  | t, [] => some t
  | t, v :: vs =>
      match insert t v with
      | none => none
      | some t2 => insertAllFrom t2 vs

/-- The tree obtained by inserting the given keys, in order, into an
initially empty tree (`none` if some insertion dereferenced null). -/
def insertAll [LinearOrder α] (keys : List α) : Option (Node α) :=
  insertAllFrom nil keys

/-- `RedBlackTree::search`: return the node (a handle to the subtree
rooted there) if the key compares equal, descend left if the target is
less, right otherwise; a null pointer answers absence. -/
def search [LinearOrder α] : Node α → α → Option (Node α)
  | nil, _ => none
  | node c l k r, v =>
      if k = v then some (node c l k r)
      else if v < k then search l v
      else search r v

/-- Plain binary-search-tree insertion (no balancing): the functional
form of the placement walk, used to relate `descend` to the in-order
sequence. -/
def bstIns [LinearOrder α] : Node α → α → Node α
  | nil, v => node RED nil v nil
  | node c l k r, v =>
      if v < k then node c (bstIns l v) k r else node c l k (bstIns r v)

/-- Is the head of the parent chain (the parent of the focus) BLACK?
False for an empty chain. -/
def headIsBlack : List (Frame α) → Prop
  | [] => False
  | f :: _ => f.color = BLACK

instance headIsBlackDec : (ctx : List (Frame α)) → Decidable (headIsBlack ctx)
  | [] => .isFalse id
  | f :: rest => decidable_of_iff (f.color = BLACK) (Iff.rfl (a := headIsBlack (f :: rest)))

/-- Red-black validity of a parent chain relative to black-height `n`
of the position it surrounds: every sibling subtree is internally valid
with the matching black-height, and a RED frame has a BLACK-rooted
sibling and a BLACK parent frame (so in particular it is not the root
frame). -/
def ctxOK : List (Frame α) → Nat → Prop
  | [], _ => True
  | f :: rest, n =>
      bhv f.other = some n ∧ noRR f.other ∧
      (f.color = RED → rootCol f.other = BLACK ∧ headIsBlack rest) ∧
      ctxOK rest (n + bInc f.color)

instance ctxOKDec : (ctx : List (Frame α)) → (n : Nat) → Decidable (ctxOK ctx n)
  | [], _ => .isTrue trivial
  | f :: rest, n =>
      letI := ctxOKDec rest (n + bInc f.color)
      decidable_of_iff
        (bhv f.other = some n ∧ noRR f.other ∧
          (f.color = RED → rootCol f.other = BLACK ∧ headIsBlack rest) ∧
          ctxOK rest (n + bInc f.color)) Iff.rfl

/-- The red-black invariants 2-5 of the spec (invariant 1 — every node
is RED or BLACK, absent children counting BLACK — is built into the
`Color` type and `rootCol`): BLACK root, no red-red edge, consistent
black-height on all paths, non-decreasing in-order key sequence. -/
def RBinv [LinearOrder α] (t : Node α) : Prop :=
  rootCol t = BLACK ∧ noRR t ∧ (∃ m, bhv t = some m) ∧
    List.Sorted (· ≤ ·) (inorder t)

end Node

end RBTApp

namespace RBTApp.Node

variable {α : Type}

open Color

theorem rootCol_blackenRoot (t : Node α) : rootCol (blackenRoot t) = BLACK := by
  cases t <;> rfl

theorem inorder_blackenRoot (t : Node α) : inorder (blackenRoot t) = inorder t := by
  cases t <;> rfl

theorem noRR_blackenRoot {t : Node α} (h : noRR t) : noRR (blackenRoot t) := by
  cases t with
  | nil => trivial
  | node c l k r => exact ⟨fun hc => absurd hc (by decide), h.2.1, h.2.2⟩

theorem color_dichotomy (c : Color) : c = RED ∨ c = BLACK := by
  cases c
  · exact Or.inl rfl
  · exact Or.inr rfl

theorem rootCol_black_of_not_red {t : Node α} (h : rootCol t ≠ RED) : rootCol t = BLACK :=
  (color_dichotomy (rootCol t)).resolve_left h

theorem bhv_node_intro {c : Color} {l r : Node α} {k : α} {n : Nat}
    (hl : bhv l = some n) (hr : bhv r = some n) :
    bhv (node c l k r) = some (n + bInc c) := by
  simp [bhv, hl, hr]

theorem bhv_node_elim {c : Color} {l r : Node α} {k : α} {n : Nat}
    (h : bhv (node c l k r) = some n) :
    ∃ m, bhv l = some m ∧ bhv r = some m ∧ n = m + bInc c := by
  cases hl : bhv l with
  | none => simp [bhv, hl] at h
  | some m =>
    cases hr : bhv r with
    | none => simp [bhv, hl, hr] at h
    | some m2 =>
      by_cases hmm : m = m2
      · subst hmm
        simp [bhv, hl, hr] at h
        exact ⟨m, rfl, rfl, by omega⟩
      · simp [bhv, hl, hr, hmm] at h

theorem bhv_blackenRoot {t : Node α} {n : Nat} (h : bhv t = some n) :
    ∃ m, bhv (blackenRoot t) = some m := by
  cases t with
  | nil => exact ⟨1, rfl⟩
  | node c l k r =>
      obtain ⟨m, hl, hr, -⟩ := bhv_node_elim h
      exact ⟨m + 1, bhv_node_intro hl hr⟩

theorem bhv_pos {t : Node α} {n : Nat} (h : bhv t = some n) : 1 ≤ n := by
  induction t generalizing n with
  | nil => simp [bhv] at h; omega
  | node c l k r ihl ihr =>
      obtain ⟨m, hl, -, hn⟩ := bhv_node_elim h
      have := ihl hl
      omega

theorem rootCol_assemble (f : Frame α) (t : Node α) : rootCol (assemble f t) = f.color := by
  obtain ⟨d, c, k, o⟩ := f; cases d <;> rfl

theorem rootCol_assembleC (f : Frame α) (c : Color) (t : Node α) :
    rootCol (assembleC f c t) = c := by
  obtain ⟨d, c0, k, o⟩ := f; cases d <;> rfl

theorem inorder_assembleC (f : Frame α) (c : Color) (t : Node α) :
    inorder (assembleC f c t) = inorder (assemble f t) := by
  obtain ⟨d, c0, k, o⟩ := f; cases d <;> rfl

theorem noRR_assembleC_black {f : Frame α} {t : Node α}
    (ht : noRR t) (ho : noRR f.other) : noRR (assembleC f BLACK t) := by
  obtain ⟨d, c0, k, o⟩ := f
  cases d <;>
    exact ⟨fun hc => absurd hc (by decide), by first | exact ⟨ht, ho⟩ | exact ⟨ho, ht⟩⟩

theorem bhv_assembleC {f : Frame α} {c : Color} {t : Node α} {n : Nat}
    (ht : bhv t = some n) (ho : bhv f.other = some n) :
    bhv (assembleC f c t) = some (n + bInc c) := by
  obtain ⟨d, c0, k, o⟩ := f
  cases d <;> exact bhv_node_intro (by assumption) (by assumption)

theorem bhv_assemble {f : Frame α} {t : Node α} {n : Nat}
    (ht : bhv t = some n) (ho : bhv f.other = some n) :
    bhv (assemble f t) = some (n + bInc f.color) := by
  obtain ⟨d, c0, k, o⟩ := f
  cases d <;> exact bhv_node_intro (by assumption) (by assumption)

theorem inorder_plug_congr {t1 t2 : Node α} (h : inorder t1 = inorder t2)
    (ctx : List (Frame α)) : inorder (plug t1 ctx) = inorder (plug t2 ctx) := by
  induction ctx generalizing t1 t2 with
  | nil => exact h
  | cons f rest ih =>
      simp only [plug]
      apply ih
      obtain ⟨d, c, k, o⟩ := f
      cases d <;> simp [assemble, inorder, h]

theorem inorderPairs_plug_congr {t1 t2 : Node α} (h : inorderPairs t1 = inorderPairs t2)
    (ctx : List (Frame α)) : inorderPairs (plug t1 ctx) = inorderPairs (plug t2 ctx) := by
  induction ctx generalizing t1 t2 with
  | nil => exact h
  | cons f rest ih =>
      simp only [plug]
      apply ih
      obtain ⟨d, c, k, o⟩ := f
      cases d <;> simp [assemble, inorderPairs, h]

theorem plug_ok : ∀ (ctx : List (Frame α)) (t : Node α) (n : Nat),
    ctxOK ctx n → noRR t → bhv t = some n →
    (rootCol t = RED → headIsBlack ctx ∨ ctx = []) →
    noRR (plug t ctx) ∧ ∃ m, bhv (plug t ctx) = some m
  | [], t, n, _, hnr, hbh, _ => ⟨hnr, n, hbh⟩
  | f :: rest, t, n, hctx, hnr, hbh, hred => by
      obtain ⟨hfo_bh, hfo_nr, hfred, hrest⟩ := hctx
      have hcol : rootCol t = RED → f.color = BLACK := by
        intro h
        rcases hred h with h2 | h2
        · exact h2
        · exact absurd h2 (by simp)
      have hA : noRR (assemble f t) := by
        obtain ⟨d, c, k, o⟩ := f
        have hfr : c = RED → rootCol o = BLACK ∧ rootCol t = BLACK := by
          intro hc
          refine ⟨(hfred hc).1, ?_⟩
          rcases color_dichotomy (rootCol t) with h | h
          · exact absurd (hcol h) (by simp [hc])
          · exact h
        cases d
        · exact ⟨fun hc => ⟨(hfr hc).2, (hfr hc).1⟩, hnr, hfo_nr⟩
        · exact ⟨fun hc => ⟨(hfr hc).1, (hfr hc).2⟩, hfo_nr, hnr⟩
      have hB : bhv (assemble f t) = some (n + bInc f.color) := bhv_assemble hbh hfo_bh
      have hR : rootCol (assemble f t) = RED → headIsBlack rest ∨ rest = [] := by
        rw [rootCol_assemble]
        intro h
        exact Or.inl (hfred h).2
      exact plug_ok rest (assemble f t) (n + bInc f.color) hrest hA hB hR

end RBTApp.Node

namespace RBTApp.Node

variable {α : Type}

open Color

theorem mk_red_facts {a b : Node α} {n : Nat} (k : α)
    (hac : rootCol a = BLACK) (hbc : rootCol b = BLACK)
    (han : noRR a) (hbn : noRR b)
    (hab : bhv a = some n) (hbb : bhv b = some n) :
    noRR (node RED a k b) ∧ bhv (node RED a k b) = some n :=
  ⟨⟨fun _ => ⟨hac, hbc⟩, han, hbn⟩, bhv_node_intro hab hbb⟩

theorem mk_black_facts {a b : Node α} {n : Nat} (k : α)
    (han : noRR a) (hbn : noRR b)
    (hab : bhv a = some n) (hbb : bhv b = some n) :
    noRR (node BLACK a k b) ∧ bhv (node BLACK a k b) = some (n + 1) :=
  ⟨⟨fun h => absurd h (by decide), han, hbn⟩, bhv_node_intro hab hbb⟩

theorem fix_finish {g w : Node α} {s : List (Frame α)} {n : Nat}
    (hg : rootCol g = BLACK) (hnr : noRR g) (hbh : bhv g = some (n + 1))
    (hctx : ctxOK s (n + 1)) (hio : inorder g = inorder w) :
    rootCol (blackenRoot (plug g s)) = BLACK ∧
    noRR (blackenRoot (plug g s)) ∧
    (∃ m, bhv (blackenRoot (plug g s)) = some m) ∧
    inorder (blackenRoot (plug g s)) = inorder (plug w s) := by
  obtain ⟨hnrp, m, hbhp⟩ := plug_ok s g (n + 1) hctx hnr hbh
    (fun h => absurd (hg.symm.trans h) (by decide))
  exact ⟨rootCol_blackenRoot _, noRR_blackenRoot hnrp, bhv_blackenRoot hbhp,
    (inorder_blackenRoot _).trans (inorder_plug_congr hio s)⟩

theorem fix_case23_left {xl xr po u : Node α} {rest2 : List (Frame α)} {n : Nat}
    (pd : Dir) (pk gk xk : α)
    (hnr : noRR (node RED xl xk xr)) (hbh : bhv (node RED xl xk xr) = some n)
    (hpo_c : rootCol po = BLACK) (hpo_nr : noRR po) (hpo_bh : bhv po = some n)
    (hu_c : rootCol u = BLACK) (hu_nr : noRR u) (hu_bh : bhv u = some n)
    (hctx : ctxOK rest2 (n + 1)) :
    ∃ t, fixInsertion (node RED xl xk xr)
        (⟨pd, RED, pk, po⟩ :: ⟨Dir.left, BLACK, gk, u⟩ :: rest2) = some t ∧
      rootCol t = BLACK ∧ noRR t ∧ (∃ m, bhv t = some m) ∧
      inorder t = inorder (plug (node RED xl xk xr)
        (⟨pd, RED, pk, po⟩ :: ⟨Dir.left, BLACK, gk, u⟩ :: rest2)) := by
  cases pd with
  | left =>
      have hinner := mk_red_facts gk hpo_c hu_c hpo_nr hu_nr hpo_bh hu_bh
      have hg2 := mk_black_facts pk hnr hinner.1 hbh hinner.2
      have hfin := fix_finish
        (g := node BLACK (node RED xl xk xr) pk (node RED po gk u))
        (w := node BLACK (node RED (node RED xl xk xr) pk po) gk u)
        rfl hg2.1 hg2.2 hctx (by simp [inorder, List.append_assoc])
      cases u with
      | nil =>
          exact ⟨blackenRoot (plug (node BLACK (node RED xl xk xr) pk
            (node RED po gk nil)) rest2), rfl,
            hfin.1, hfin.2.1, hfin.2.2.1, hfin.2.2.2⟩
      | node uc ul uk ur =>
          cases uc with
          | RED => exact absurd hu_c (by simp [rootCol])
          | BLACK =>
              exact ⟨blackenRoot (plug (node BLACK (node RED xl xk xr) pk
                (node RED po gk (node BLACK ul uk ur))) rest2), rfl,
                hfin.1, hfin.2.1, hfin.2.2.1, hfin.2.2.2⟩
  | right =>
      obtain ⟨hx_ch, hxl_nr, hxr_nr⟩ := hnr
      obtain ⟨hxl_c, hxr_c⟩ := hx_ch rfl
      obtain ⟨mx, hxl_bh, hxr_bh, hmx⟩ := bhv_node_elim hbh
      have hmx' : mx = n := by simp [bInc] at hmx; omega
      rw [hmx'] at hxl_bh hxr_bh
      have hinnerL := mk_red_facts pk hpo_c hxl_c hpo_nr hxl_nr hpo_bh hxl_bh
      have hinnerR := mk_red_facts gk hxr_c hu_c hxr_nr hu_nr hxr_bh hu_bh
      have hg2 := mk_black_facts xk hinnerL.1 hinnerR.1 hinnerL.2 hinnerR.2
      have hfin := fix_finish
        (g := node BLACK (node RED po pk xl) xk (node RED xr gk u))
        (w := node BLACK (node RED po pk (node RED xl xk xr)) gk u)
        rfl hg2.1 hg2.2 hctx (by simp [inorder, List.append_assoc])
      cases u with
      | nil =>
          exact ⟨blackenRoot (plug (node BLACK (node RED po pk xl) xk
            (node RED xr gk nil)) rest2), rfl,
            hfin.1, hfin.2.1, hfin.2.2.1, hfin.2.2.2⟩
      | node uc ul uk ur =>
          cases uc with
          | RED => exact absurd hu_c (by simp [rootCol])
          | BLACK =>
              exact ⟨blackenRoot (plug (node BLACK (node RED po pk xl) xk
                (node RED xr gk (node BLACK ul uk ur))) rest2), rfl,
                hfin.1, hfin.2.1, hfin.2.2.1, hfin.2.2.2⟩

theorem fix_case23_right {xl xr po u : Node α} {rest2 : List (Frame α)} {n : Nat}
    (pd : Dir) (pk gk xk : α)
    (hnr : noRR (node RED xl xk xr)) (hbh : bhv (node RED xl xk xr) = some n)
    (hpo_c : rootCol po = BLACK) (hpo_nr : noRR po) (hpo_bh : bhv po = some n)
    (hu_c : rootCol u = BLACK) (hu_nr : noRR u) (hu_bh : bhv u = some n)
    (hctx : ctxOK rest2 (n + 1)) :
    ∃ t, fixInsertion (node RED xl xk xr)
        (⟨pd, RED, pk, po⟩ :: ⟨Dir.right, BLACK, gk, u⟩ :: rest2) = some t ∧
      rootCol t = BLACK ∧ noRR t ∧ (∃ m, bhv t = some m) ∧
      inorder t = inorder (plug (node RED xl xk xr)
        (⟨pd, RED, pk, po⟩ :: ⟨Dir.right, BLACK, gk, u⟩ :: rest2)) := by
  cases pd with
  | right =>
      have hinner := mk_red_facts gk hu_c hpo_c hu_nr hpo_nr hu_bh hpo_bh
      have hg2 := mk_black_facts pk hinner.1 hnr hinner.2 hbh
      have hfin := fix_finish
        (g := node BLACK (node RED u gk po) pk (node RED xl xk xr))
        (w := node BLACK u gk (node RED po pk (node RED xl xk xr)))
        rfl hg2.1 hg2.2 hctx (by simp [inorder, List.append_assoc])
      cases u with
      | nil =>
          exact ⟨blackenRoot (plug (node BLACK (node RED nil gk po) pk
            (node RED xl xk xr)) rest2), rfl,
            hfin.1, hfin.2.1, hfin.2.2.1, hfin.2.2.2⟩
      | node uc ul uk ur =>
          cases uc with
          | RED => exact absurd hu_c (by simp [rootCol])
          | BLACK =>
              exact ⟨blackenRoot (plug (node BLACK (node RED (node BLACK ul uk ur) gk po) pk
                (node RED xl xk xr)) rest2), rfl,
                hfin.1, hfin.2.1, hfin.2.2.1, hfin.2.2.2⟩
  | left =>
      obtain ⟨hx_ch, hxl_nr, hxr_nr⟩ := hnr
      obtain ⟨hxl_c, hxr_c⟩ := hx_ch rfl
      obtain ⟨mx, hxl_bh, hxr_bh, hmx⟩ := bhv_node_elim hbh
      have hmx' : mx = n := by simp [bInc] at hmx; omega
      rw [hmx'] at hxl_bh hxr_bh
      have hinnerL := mk_red_facts gk hu_c hxl_c hu_nr hxl_nr hu_bh hxl_bh
      have hinnerR := mk_red_facts pk hxr_c hpo_c hxr_nr hpo_nr hxr_bh hpo_bh
      have hg2 := mk_black_facts xk hinnerL.1 hinnerR.1 hinnerL.2 hinnerR.2
      have hfin := fix_finish
        (g := node BLACK (node RED u gk xl) xk (node RED xr pk po))
        (w := node BLACK u gk (node RED (node RED xl xk xr) pk po))
        rfl hg2.1 hg2.2 hctx (by simp [inorder, List.append_assoc])
      cases u with
      | nil =>
          exact ⟨blackenRoot (plug (node BLACK (node RED nil gk xl) xk
            (node RED xr pk po)) rest2), rfl,
            hfin.1, hfin.2.1, hfin.2.2.1, hfin.2.2.2⟩
      | node uc ul uk ur =>
          cases uc with
          | RED => exact absurd hu_c (by simp [rootCol])
          | BLACK =>
              exact ⟨blackenRoot (plug (node BLACK (node RED (node BLACK ul uk ur) gk xl) xk
                (node RED xr pk po)) rest2), rfl,
                hfin.1, hfin.2.1, hfin.2.2.1, hfin.2.2.2⟩

end RBTApp.Node

namespace RBTApp.Node

variable {α : Type}

open Color

theorem fix_main : ∀ (N : Nat) (ctx : List (Frame α)) (x : Node α) (n : Nat),
    ctx.length ≤ N → rootCol x = RED → noRR x → bhv x = some n → ctxOK ctx n →
    ∃ t, fixInsertion x ctx = some t ∧ rootCol t = BLACK ∧ noRR t ∧
      (∃ m, bhv t = some m) ∧ inorder t = inorder (plug x ctx) := by
  intro N
  induction N with
  | zero =>
      intro ctx x n hlen hx hnr hbh _
      have hc : ctx = [] := List.length_eq_zero.mp (Nat.le_zero.mp hlen)
      subst hc
      exact ⟨blackenRoot x, rfl, rootCol_blackenRoot x, noRR_blackenRoot hnr,
        bhv_blackenRoot hbh, inorder_blackenRoot x⟩
  | succ N ih =>
      intro ctx x n hlen hx hnr hbh hctx
      cases ctx with
      | nil =>
          exact ⟨blackenRoot x, rfl, rootCol_blackenRoot x, noRR_blackenRoot hnr,
            bhv_blackenRoot hbh, inorder_blackenRoot x⟩
      | cons pf rest =>
        obtain ⟨pd, pc, pk, po⟩ := pf
        simp only [ctxOK] at hctx
        obtain ⟨hpo_bh, hpo_nr, hpfred, hrest⟩ := hctx
        cases pc with
        | BLACK =>
            obtain ⟨hnrp, m, hbhp⟩ := plug_ok (⟨pd, BLACK, pk, po⟩ :: rest) x n
              ⟨hpo_bh, hpo_nr, hpfred, hrest⟩ hnr hbh (fun _ => Or.inl rfl)
            exact ⟨blackenRoot (plug x (⟨pd, BLACK, pk, po⟩ :: rest)), rfl,
              rootCol_blackenRoot _, noRR_blackenRoot hnrp, bhv_blackenRoot hbhp,
              inorder_blackenRoot _⟩
        | RED =>
          obtain ⟨hpo_c, hhead⟩ := hpfred rfl
          cases rest with
          | nil => exact absurd hhead (by simp [headIsBlack])
          | cons gf rest2 =>
            obtain ⟨gd, gc, gk, go⟩ := gf
            have hgc : gc = BLACK := hhead
            subst hgc
            simp only [ctxOK, bInc, Nat.add_zero] at hrest
            obtain ⟨hgo_bh, hgo_nr, -, hrest2⟩ := hrest
            have hlen2 : rest2.length ≤ N := by
              simp only [List.length_cons] at hlen; omega
            cases x with
            | nil => exact absurd hx (by simp [rootCol])
            | node xc xl xk xr =>
            have hxc : xc = RED := hx
            subst hxc
            cases gd with
            | left =>
              cases go with
              | nil =>
                  exact fix_case23_left pd pk gk xk hnr hbh hpo_c hpo_nr hpo_bh
                    rfl trivial hgo_bh hrest2
              | node uc ul uk ur =>
                cases uc with
                | BLACK =>
                    exact fix_case23_left pd pk gk xk hnr hbh hpo_c hpo_nr hpo_bh
                      rfl hgo_nr hgo_bh hrest2
                | RED =>
                  obtain ⟨m', hul, hur, hm'⟩ := bhv_node_elim hgo_bh
                  have hm : m' = n := by simp [bInc] at hm'; omega
                  rw [hm] at hul hur
                  obtain ⟨-, hul_nr, hur_nr⟩ := hgo_nr
                  have hx2nr : noRR (node RED
                      (assembleC ⟨pd, RED, pk, po⟩ BLACK (node RED xl xk xr)) gk
                      (node BLACK ul uk ur)) := by
                    refine ⟨fun _ => ⟨rootCol_assembleC _ _ _, rfl⟩,
                      noRR_assembleC_black hnr hpo_nr, ?_⟩
                    exact ⟨fun h => absurd h (by decide), hul_nr, hur_nr⟩
                  have hx2bh : bhv (node RED
                      (assembleC ⟨pd, RED, pk, po⟩ BLACK (node RED xl xk xr)) gk
                      (node BLACK ul uk ur)) = some (n + 1) :=
                    bhv_node_intro (bhv_assembleC hbh hpo_bh) (bhv_node_intro hul hur)
                  obtain ⟨t, hfix, h1, h2, h3, hio⟩ :=
                    ih rest2 (node RED
                      (assembleC ⟨pd, RED, pk, po⟩ BLACK (node RED xl xk xr)) gk
                      (node BLACK ul uk ur)) (n + 1) hlen2 rfl hx2nr hx2bh hrest2
                  refine ⟨t, hfix, h1, h2, h3, ?_⟩
                  rw [hio]
                  simp only [plug]
                  exact inorder_plug_congr
                    (by simp [inorder, inorder_assembleC, assemble, List.append_assoc]) rest2
            | right =>
              cases go with
              | nil =>
                  exact fix_case23_right pd pk gk xk hnr hbh hpo_c hpo_nr hpo_bh
                    rfl trivial hgo_bh hrest2
              | node uc ul uk ur =>
                cases uc with
                | BLACK =>
                    exact fix_case23_right pd pk gk xk hnr hbh hpo_c hpo_nr hpo_bh
                      rfl hgo_nr hgo_bh hrest2
                | RED =>
                  obtain ⟨m', hul, hur, hm'⟩ := bhv_node_elim hgo_bh
                  have hm : m' = n := by simp [bInc] at hm'; omega
                  rw [hm] at hul hur
                  obtain ⟨-, hul_nr, hur_nr⟩ := hgo_nr
                  have hx2nr : noRR (node RED (node BLACK ul uk ur) gk
                      (assembleC ⟨pd, RED, pk, po⟩ BLACK (node RED xl xk xr))) := by
                    refine ⟨fun _ => ⟨rfl, rootCol_assembleC _ _ _⟩, ?_,
                      noRR_assembleC_black hnr hpo_nr⟩
                    exact ⟨fun h => absurd h (by decide), hul_nr, hur_nr⟩
                  have hx2bh : bhv (node RED (node BLACK ul uk ur) gk
                      (assembleC ⟨pd, RED, pk, po⟩ BLACK (node RED xl xk xr)))
                      = some (n + 1) :=
                    bhv_node_intro (bhv_node_intro hul hur) (bhv_assembleC hbh hpo_bh)
                  obtain ⟨t, hfix, h1, h2, h3, hio⟩ :=
                    ih rest2 (node RED (node BLACK ul uk ur) gk
                      (assembleC ⟨pd, RED, pk, po⟩ BLACK (node RED xl xk xr)))
                      (n + 1) hlen2 rfl hx2nr hx2bh hrest2
                  refine ⟨t, hfix, h1, h2, h3, ?_⟩
                  rw [hio]
                  simp only [plug]
                  exact inorder_plug_congr
                    (by simp [inorder, inorder_assembleC, assemble, List.append_assoc]) rest2

end RBTApp.Node

namespace RBTApp.Node

variable {α : Type}

open Color

theorem descend_ctxOK [LinearOrder α] :
    ∀ (t : Node α) (v : α) (acc : List (Frame α)) (n : Nat),
      bhv t = some n → noRR t → ctxOK acc n →
      (rootCol t = RED → headIsBlack acc) →
      ctxOK (descend t v acc) 1 := by
  intro t
  induction t with
  | nil =>
      intro v acc n hbh hnr hacc hred
      have hn : n = 1 := by simp [bhv] at hbh; omega
      subst hn
      simpa [descend] using hacc
  | node c l k r ihl ihr =>
      intro v acc n hbh hnr hacc hred
      obtain ⟨m, hl, hr, hn⟩ := bhv_node_elim hbh
      obtain ⟨hcc, hlnr, hrnr⟩ := hnr
      subst hn
      by_cases hv : v < k
      · simp only [descend, if_pos hv]
        refine ihl v _ m hl hlnr ⟨hr, hrnr, ?_, hacc⟩ ?_
        · intro hc
          exact ⟨(hcc hc).2, hred hc⟩
        · intro hlred
          rcases color_dichotomy c with hcR | hcB
          · exact absurd hlred (by rw [(hcc hcR).1]; decide)
          · exact hcB
      · simp only [descend, if_neg hv]
        refine ihr v _ m hr hrnr ⟨hl, hlnr, ?_, hacc⟩ ?_
        · intro hc
          exact ⟨(hcc hc).1, hred hc⟩
        · intro hrred
          rcases color_dichotomy c with hcR | hcB
          · exact absurd hrred (by rw [(hcc hcR).2]; decide)
          · exact hcB

theorem descend_plug [LinearOrder α] :
    ∀ (t : Node α) (v : α) (acc : List (Frame α)),
      plug (node RED nil v nil) (descend t v acc) = plug (bstIns t v) acc := by
  intro t
  induction t with
  | nil => intro v acc; rfl
  | node c l k r ihl ihr =>
      intro v acc
      by_cases hv : v < k
      · simp only [descend, bstIns, if_pos hv]
        rw [ihl]
        rfl
      · simp only [descend, bstIns, if_neg hv]
        rw [ihr]
        rfl

theorem descend_length_le [LinearOrder α] :
    ∀ (t : Node α) (v : α) (acc : List (Frame α)),
      (descend t v acc).length ≤ height t + acc.length := by
  intro t
  induction t with
  | nil => intro v acc; simp [descend, height]
  | node c l k r ihl ihr =>
      intro v acc
      by_cases hv : v < k
      · simp only [descend, if_pos hv, height]
        have := ihl v (⟨Dir.left, c, k, r⟩ :: acc)
        simp only [List.length_cons] at this
        omega
      · simp only [descend, if_neg hv, height]
        have := ihr v (⟨Dir.right, c, k, l⟩ :: acc)
        simp only [List.length_cons] at this
        omega

theorem inorder_bstIns_perm [LinearOrder α] :
    ∀ (t : Node α) (v : α), List.Perm (inorder (bstIns t v)) (v :: inorder t) := by
  intro t v
  induction t with
  | nil => simp [bstIns, inorder]
  | node c l k r ihl ihr =>
      by_cases hv : v < k
      · simp only [bstIns, if_pos hv, inorder]
        exact ihl.append_right _
      · simp only [bstIns, if_neg hv, inorder]
        refine (List.Perm.append_left _ (List.Perm.cons _ ihr)).trans ?_
        have h1 : inorder l ++ k :: v :: inorder r
            = (inorder l ++ [k]) ++ v :: inorder r := by simp
        have h2 : v :: (inorder l ++ k :: inorder r)
            = v :: ((inorder l ++ [k]) ++ inorder r) := by simp
        rw [h1, h2]
        exact List.perm_middle

theorem sorted_append_iff {r : α → α → Prop} {l1 l2 : List α} :
    List.Sorted r (l1 ++ l2) ↔
      List.Sorted r l1 ∧ List.Sorted r l2 ∧ ∀ a ∈ l1, ∀ b ∈ l2, r a b :=
  List.pairwise_append

theorem sorted_bstIns [LinearOrder α] {t : Node α} (v : α)
    (h : List.Sorted (· ≤ ·) (inorder t)) :
    List.Sorted (· ≤ ·) (inorder (bstIns t v)) := by
  induction t with
  | nil => simp [bstIns, inorder]
  | node c l k r ihl ihr =>
      rw [inorder, sorted_append_iff] at h
      obtain ⟨hl, hkr, hcross⟩ := h
      rw [List.sorted_cons] at hkr
      obtain ⟨hkr1, hr⟩ := hkr
      by_cases hv : v < k
      · simp only [bstIns, if_pos hv, inorder]
        rw [sorted_append_iff]
        refine ⟨ihl hl, ?_, ?_⟩
        · rw [List.sorted_cons]; exact ⟨hkr1, hr⟩
        · intro a ha b hb
          rcases List.mem_cons.mp ((inorder_bstIns_perm l v).mem_iff.mp ha) with hav | hal
          · subst hav
            rcases List.mem_cons.mp hb with hbk | hbr
            · rw [hbk]; exact le_of_lt hv
            · exact le_of_lt (lt_of_lt_of_le hv (hkr1 b hbr))
          · exact hcross a hal b hb
      · have hkv : k ≤ v := le_of_not_lt hv
        simp only [bstIns, if_neg hv, inorder]
        rw [sorted_append_iff]
        refine ⟨hl, ?_, ?_⟩
        · rw [List.sorted_cons]
          refine ⟨?_, ihr hr⟩
          intro b hb
          rcases List.mem_cons.mp ((inorder_bstIns_perm r v).mem_iff.mp hb) with hbv | hbr
          · rw [hbv]; exact hkv
          · exact hkr1 b hbr
        · intro a ha b hb
          rcases List.mem_cons.mp hb with hbk | hbr
          · rw [hbk]; exact hcross a ha k (List.mem_cons_self k _)
          · rcases List.mem_cons.mp ((inorder_bstIns_perm r v).mem_iff.mp hbr) with hbv | hbr2
            · rw [hbv]
              exact le_trans (hcross a ha k (List.mem_cons_self k _)) hkv
            · exact hcross a ha b (List.mem_cons.mpr (Or.inr hbr2))

theorem insert_ok [LinearOrder α] {t : Node α} (v : α) (h : RBinv t) :
    ∃ t2, insert t v = some t2 ∧ RBinv t2 ∧
      List.Perm (inorder t2) (v :: inorder t) := by
  obtain ⟨hcol, hnr, ⟨m, hbh⟩, hsort⟩ := h
  cases t with
  | nil =>
      refine ⟨node BLACK nil v nil, rfl,
        ⟨rfl, ⟨fun h => absurd h (by decide), trivial, trivial⟩, ⟨2, rfl⟩, ?_⟩, ?_⟩
      · simp [inorder]
      · simp [inorder]
  | node c l k r =>
      have hctx := descend_ctxOK (node c l k r) v [] m hbh hnr trivial
        (fun hred => absurd (hcol.symm.trans hred) (by decide))
      obtain ⟨t2, hfix, h1, h2, h3, hio⟩ := fix_main (descend (node c l k r) v []).length
        (descend (node c l k r) v []) (node RED nil v nil) 1 le_rfl rfl
        ⟨fun _ => ⟨rfl, rfl⟩, trivial, trivial⟩ rfl hctx
      have hplug : inorder t2 = inorder (bstIns (node c l k r) v) := by
        rw [hio, descend_plug]
        rfl
      refine ⟨t2, hfix, ⟨h1, h2, h3, ?_⟩, ?_⟩
      · rw [hplug]; exact sorted_bstIns v hsort
      · rw [hplug]; exact inorder_bstIns_perm _ v

theorem RBinv_nil [LinearOrder α] : RBinv (nil : Node α) :=
  ⟨rfl, trivial, ⟨1, rfl⟩, by simp [inorder]⟩

theorem insertAllFrom_ok [LinearOrder α] :
    ∀ (keys : List α) (t : Node α), RBinv t →
      ∃ t2, insertAllFrom t keys = some t2 ∧ RBinv t2 ∧
        List.Perm (inorder t2) (keys ++ inorder t) := by
  intro keys
  induction keys with
  | nil => intro t h; exact ⟨t, rfl, h, by simp⟩
  | cons v vs ih =>
      intro t h
      obtain ⟨t1, hins, h1, hperm1⟩ := insert_ok v h
      obtain ⟨t2, hall, h2, hperm2⟩ := ih t1 h1
      refine ⟨t2, ?_, h2, ?_⟩
      · simp only [insertAllFrom, hins]
        exact hall
      · refine hperm2.trans ?_
        refine (List.Perm.append_left vs hperm1).trans ?_
        exact List.perm_middle

theorem insertAll_ok [LinearOrder α] (keys : List α) :
    ∃ t, insertAll keys = some t ∧ RBinv t ∧ List.Perm (inorder t) keys := by
  obtain ⟨t, h1, h2, h3⟩ := insertAllFrom_ok keys nil RBinv_nil
  exact ⟨t, h1, h2, by simpa [inorder] using h3⟩

end RBTApp.Node

namespace RBTApp.Node

variable {α : Type}

open Color

theorem inorderPrint_keys_perm : ∀ t : Node α,
    List.Perm ((inorderPrint t).map Prod.fst) (inorder t) := by
  intro t
  induction t with
  | nil => simp [inorderPrint, inorder]
  | node c l k r ihl ihr =>
      simp only [inorderPrint, inorder, List.map_cons, List.map_append]
      refine (List.Perm.cons k (List.Perm.append ihl ihr)).trans ?_
      exact List.perm_middle.symm

theorem size_eq_length_inorder : ∀ t : Node α, size t = (inorder t).length := by
  intro t
  induction t with
  | nil => rfl
  | node c l k r ihl ihr =>
      simp only [size, inorder, List.length_append, List.length_cons, ihl, ihr]
      omega

theorem search_correct [LinearOrder α] : ∀ (t : Node α),
    List.Sorted (· ≤ ·) (inorder t) → ∀ v : α,
    (search t v = none ↔ v ∉ inorder t) ∧
      (∀ res, search t v = some res → ∃ c l r, res = node c l v r) := by
  intro t
  induction t with
  | nil =>
      intro _ v
      constructor
      · simp [search, inorder]
      · intro res hres; simp [search] at hres
  | node c l k r ihl ihr =>
      intro hs v
      rw [inorder, sorted_append_iff] at hs
      obtain ⟨hl, hkr, hcross⟩ := hs
      rw [List.sorted_cons] at hkr
      obtain ⟨hkr1, hr⟩ := hkr
      by_cases hk : k = v
      · subst hk
        constructor
        · simp [search, inorder]
        · intro res hres
          simp [search] at hres
          exact ⟨c, l, r, hres.symm⟩
      · by_cases hv : v < k
        · have hstep : search (node c l k r) v = search l v := by
            simp [search, hk, hv]
          have hmemiff : (v ∈ inorder (node c l k r)) ↔ v ∈ inorder l := by
            simp only [inorder, List.mem_append, List.mem_cons]
            constructor
            · rintro (h | h | h)
              · exact h
              · exact absurd h.symm hk
              · exact absurd (hkr1 v h) (not_le.mpr hv)
            · exact fun h => Or.inl h
          obtain ⟨ih1, ih2⟩ := ihl hl v
          refine ⟨?_, ?_⟩
          · rw [hstep, ih1]
            exact (not_congr hmemiff).symm
          · intro res hres
            exact ih2 res (hstep ▸ hres)
        · have hklt : k < v := lt_of_le_of_ne (le_of_not_lt hv) hk
          have hstep : search (node c l k r) v = search r v := by
            simp [search, hk, hv]
          have hmemiff : (v ∈ inorder (node c l k r)) ↔ v ∈ inorder r := by
            simp only [inorder, List.mem_append, List.mem_cons]
            constructor
            · rintro (h | h | h)
              · exact absurd (hcross v h k (List.mem_cons_self k _)) (not_le.mpr hklt)
              · exact absurd h.symm hk
              · exact h
            · exact fun h => Or.inr (Or.inr h)
          obtain ⟨ih1, ih2⟩ := ihr hr v
          refine ⟨?_, ?_⟩
          · rw [hstep, ih1]
            exact (not_congr hmemiff).symm
          · intro res hres
            exact ih2 res (hstep ▸ hres)

theorem fixIters_le : ∀ ctx : List (Frame α), fixIters ctx ≤ ctx.length
  | [] => Nat.le_refl _
  | [pf] => by
      obtain ⟨pd, pc, pk, po⟩ := pf
      cases pc <;> simp [fixIters]
  | pf :: gf :: rest2 => by
      obtain ⟨pd, pc, pk, po⟩ := pf
      obtain ⟨gd, gc, gk, go⟩ := gf
      cases pc with
      | BLACK => simp [fixIters]
      | RED =>
        cases go with
        | nil => simp [fixIters]
        | node uc ul uk ur =>
          cases uc with
          | BLACK => simp [fixIters]
          | RED =>
              have ih := fixIters_le rest2
              simp only [fixIters, List.length_cons]
              omega

theorem size_ge_pow_bh : ∀ (t : Node α) (m : Nat), bhv t = some m →
    2 ^ (m - 1) ≤ size t + 1 := by
  intro t
  induction t with
  | nil =>
      intro m h
      simp [bhv] at h
      simp [size, ← h]
  | node c l k r ihl ihr =>
      intro m h
      obtain ⟨m2, hl, hr, hm⟩ := bhv_node_elim h
      have h1 := ihl m2 hl
      have h2 := ihr m2 hr
      have hpos := bhv_pos hl
      have hle : m - 1 ≤ m2 := by cases c <;> simp [bInc] at hm <;> omega
      calc 2 ^ (m - 1) ≤ 2 ^ m2 := Nat.pow_le_pow_right (by omega) hle
        _ = 2 ^ (m2 - 1) + 2 ^ (m2 - 1) := by
            have hss : m2 - 1 + 1 = m2 := by omega
            have hps := pow_succ 2 (m2 - 1)
            rw [hss] at hps
            omega
        _ ≤ (size l + 1) + (size r + 1) := Nat.add_le_add h1 h2
        _ = size (node c l k r) + 1 := by simp [size]; omega

theorem height_le_bh : ∀ t : Node α, noRR t → ∀ m, bhv t = some m →
    height t + 1 + bInc (rootCol t) ≤ 2 * m := by
  intro t
  induction t with
  | nil =>
      intro _ m h
      simp [bhv] at h
      simp [height, rootCol, bInc, ← h]
  | node c l k r ihl ihr =>
      intro hnr m h
      obtain ⟨hcc, hlnr, hrnr⟩ := hnr
      obtain ⟨m2, hl, hr, hm⟩ := bhv_node_elim h
      have h1 := ihl hlnr m2 hl
      have h2 := ihr hrnr m2 hr
      have hl1 : height l + 1 ≤ 2 * m2 := by
        cases hcl : rootCol l <;> rw [hcl] at h1 <;> simp [bInc] at h1 <;> omega
      have hr1 : height r + 1 ≤ 2 * m2 := by
        cases hcr : rootCol r <;> rw [hcr] at h2 <;> simp [bInc] at h2 <;> omega
      have hpos : 1 ≤ m2 := bhv_pos hl
      cases c with
      | BLACK =>
          have hmax : max (height l) (height r) ≤ 2 * m2 - 1 :=
            Nat.max_le.mpr ⟨by omega, by omega⟩
          simp only [height, rootCol, bInc]
          simp [bInc] at hm
          omega
      | RED =>
          obtain ⟨hclB, hcrB⟩ := hcc rfl
          rw [hclB] at h1
          rw [hcrB] at h2
          simp [bInc] at h1 h2
          have hmax : max (height l) (height r) ≤ 2 * m2 - 2 :=
            Nat.max_le.mpr ⟨by omega, by omega⟩
          simp only [height, rootCol, bInc]
          simp [bInc] at hm
          omega

theorem rb_height_bound {t : Node α} (hnr : noRR t) {m : Nat}
    (hbh : bhv t = some m) (hcol : rootCol t = BLACK) :
    2 ^ height t ≤ (size t + 1) ^ 2 := by
  have h1 := height_le_bh t hnr m hbh
  rw [hcol] at h1
  simp [bInc] at h1
  have h2 := size_ge_pow_bh t m hbh
  have hm1 : 1 ≤ m := bhv_pos hbh
  calc 2 ^ height t ≤ 2 ^ (2 * (m - 1)) := Nat.pow_le_pow_right (by omega) (by omega)
    _ = (2 ^ (m - 1)) ^ 2 := by rw [← Nat.pow_mul, Nat.mul_comm]
    _ ≤ (size t + 1) ^ 2 := Nat.pow_le_pow_left h2 2

theorem fixInsertion_none : ∀ (ctx : List (Frame α)) (x : Node α), x ≠ nil →
    fixInsertion x ctx = none →
    ∃ k f, List.drop k ctx = [f] ∧ f.color = RED
  | [], _, _, h => absurd h (by simp [fixInsertion])
  | [pf], x, hx, h => by
      obtain ⟨pd, pc, pk, po⟩ := pf
      cases pc with
      | BLACK => exact Option.noConfusion h
      | RED => exact ⟨0, ⟨pd, RED, pk, po⟩, rfl, rfl⟩
  | pf :: gf :: rest2, x, hx, h => by
      obtain ⟨pd, pc, pk, po⟩ := pf
      obtain ⟨gd, gc, gk, go⟩ := gf
      cases pc with
      | BLACK => exact Option.noConfusion h
      | RED =>
        cases x with
        | nil => exact absurd rfl hx
        | node xc xl xk xr =>
        cases gd with
        | left =>
          cases go with
          | nil => cases pd <;> exact Option.noConfusion h
          | node uc ul uk ur =>
            cases uc with
            | BLACK => cases pd <;> exact Option.noConfusion h
            | RED =>
                obtain ⟨k2, f, hdrop, hcf⟩ := fixInsertion_none rest2
                  (node RED (assembleC ⟨pd, RED, pk, po⟩ BLACK (node xc xl xk xr)) gk
                    (node BLACK ul uk ur)) (by simp) h
                exact ⟨k2 + 2, f, hdrop, hcf⟩
        | right =>
          cases go with
          | nil => cases pd <;> exact Option.noConfusion h
          | node uc ul uk ur =>
            cases uc with
            | BLACK => cases pd <;> exact Option.noConfusion h
            | RED =>
                obtain ⟨k2, f, hdrop, hcf⟩ := fixInsertion_none rest2
                  (node RED (node BLACK ul uk ur) gk
                    (assembleC ⟨pd, RED, pk, po⟩ BLACK (node xc xl xk xr))) (by simp) h
                exact ⟨k2 + 2, f, hdrop, hcf⟩

end RBTApp.Node

namespace RBTApp.Node

variable {α : Type}

open Color

/-- Claim C1, as stated, is false on the code: starting from an empty tree
and inserting 10, 20, 30, the traversal (`inorderPrint`, reached through
`RedBlackTree::print`) emits the key sequence [20, 10, 30], which is the
pre-order production (node before children, as the function body and its
own comments say), not a non-decreasing sequence. -/
theorem rbt_C1_cex :
    ∃ t : Node Int, insertAll ([10, 20, 30] : List Int) = some t ∧
      (inorderPrint t).map Prod.fst = [20, 10, 30] ∧
      ¬ List.Sorted (· ≤ ·) ((inorderPrint t).map Prod.fst) :=
  ⟨node BLACK (node RED nil 10 nil) 20 (node RED nil 30 nil),
    by decide, by decide, by decide⟩

/-- Claim C1 (amended): for every finite sequence of inserted keys,
`traverse()` yields exactly the multiset of inserted keys — every
inserted key, duplicates included, appears exactly once — but as a
pre-order production of the stored (key, color) pairs (each node's pair
before its subtrees), not in non-decreasing comparator order. -/
theorem rbt_C1 [LinearOrder α] (keys : List α) :
    ∃ t, insertAll keys = some t ∧
      List.Perm ((inorderPrint t).map Prod.fst) keys := by
  obtain ⟨t, h1, -, h3⟩ := insertAll_ok keys
  exact ⟨t, h1, (inorderPrint_keys_perm t).trans h3⟩

/-- Claim C2: for every finite sequence of keys, after each call to
insert (the tree reached by any such sequence — every prefix of a
sequence is itself a sequence, so this quantifies over the state after
every individual insert) the tree satisfies the red-black invariants:
BLACK root (invariant 2; invariant 1 — every node RED or BLACK with
absent children BLACK — is built into `Color` and `rootCol`), no RED
node with a RED child (invariant 3), equal BLACK count on every path to
an absent-child position (invariant 4, `bhv` returns `some`), and
non-decreasing in-order key sequence (invariant 5). -/
theorem rbt_C2 [LinearOrder α] (keys : List α) :
    ∃ t, insertAll keys = some t ∧ rootCol t = BLACK ∧ noRR t ∧
      (∃ m, bhv t = some m) ∧ List.Sorted (· ≤ ·) (inorder t) := by
  obtain ⟨t, h1, ⟨ha, hb, hc, hd⟩, -⟩ := insertAll_ok keys
  exact ⟨t, h1, ha, hb, hc, hd⟩

/-- Claim C3: inserting 10, then 20, then 30 into an empty tree gives
the tree with root 20 BLACK, left child 10 RED, right child 30 RED —
the canonical Case-3 outcome (reached here through the mirror branch's
left rotation at the grandparent 10). -/
theorem rbt_C3 :
    insertAll ([10, 20, 30] : List Int) =
      some (node BLACK (node RED nil 10 nil) 20 (node RED nil 30 nil)) := by
  decide

/-- Claim C4: on every tree built by a finite insertion sequence,
`search(k)` returns null exactly when no stored key equals `k`, and
when some stored key equals `k` it returns a handle to a node holding
such a key (the returned subtree's root key is `k`). -/
theorem rbt_C4 [LinearOrder α] (keys : List α) (k : α) (t : Node α)
    (h : insertAll keys = some t) :
    (search t k = none ↔ ¬ k ∈ keys) ∧
      (k ∈ keys → ∃ c l r, search t k = some (node c l k r)) := by
  obtain ⟨t2, h1, ⟨-, -, -, hsort⟩, hperm⟩ := insertAll_ok keys
  have ht : t2 = t := Option.some.inj (h1.symm.trans h)
  subst ht
  obtain ⟨hiff, hshape⟩ := search_correct t2 hsort k
  have hmem : k ∈ inorder t2 ↔ k ∈ keys := hperm.mem_iff
  refine ⟨?_, ?_⟩
  · rw [hiff]
    exact not_congr hmem
  · intro hk
    have hkin : k ∈ inorder t2 := hmem.mpr hk
    cases hres : search t2 k with
    | none => exact absurd hkin (hiff.mp hres)
    | some res =>
        obtain ⟨c, l, r, hshape2⟩ := hshape res hres
        exact ⟨c, l, r, by rw [hshape2]⟩

theorem rbt_C4_witness :
    (search (node BLACK
        (node RED (node BLACK nil 10 nil) 20
          (node BLACK (node RED nil 30 nil) 35 (node RED nil 37 nil)))
        40 (node BLACK nil 70 nil) : Node Int) 35 = none ↔
      ¬ (35 : Int) ∈ ([40, 20, 70, 10, 30, 35, 37] : List Int)) ∧
    ((35 : Int) ∈ ([40, 20, 70, 10, 30, 35, 37] : List Int) →
      ∃ c l r, search (node BLACK
        (node RED (node BLACK nil 10 nil) 20
          (node BLACK (node RED nil 30 nil) 35 (node RED nil 37 nil)))
        40 (node BLACK nil 70 nil) : Node Int) 35 = some (node c l 35 r)) :=
  rbt_C4 [40, 20, 70, 10, 30, 35, 37] 35
    (node BLACK
      (node RED (node BLACK nil 10 nil) 20
        (node BLACK (node RED nil 30 nil) 35 (node RED nil 37 nil)))
      40 (node BLACK nil 70 nil)) (by decide)

/-- Claim C5: for every tree built by inserting n keys, the height is at
most 2*log2(n+1), stated exactly in exponential form: 2^height ≤ (n+1)^2
(for the real-valued logarithm, h ≤ 2*log2(n+1) iff 2^h ≤ (n+1)^2). -/
theorem rbt_C5 [LinearOrder α] (keys : List α) :
    ∃ t, insertAll keys = some t ∧ 2 ^ height t ≤ (keys.length + 1) ^ 2 := by
  obtain ⟨t, h1, ⟨hcol, hnr, ⟨m, hbh⟩, -⟩, hperm⟩ := insertAll_ok keys
  have hsize : size t = keys.length := by
    rw [size_eq_length_inorder]
    exact hperm.length_eq
  refine ⟨t, h1, ?_⟩
  have hb := rb_height_bound hnr hbh hcol
  rwa [hsize] at hb

/-- Claim C6: a left rotation at a node with a present right child, and
a right rotation at a node with a present left child, leave the in-order
sequence of (key, color) pairs of the whole surrounding tree unchanged:
no key moves past another and no node's color is touched. -/
theorem rbt_C6 (x y u v : Node α) (ctx : List (Frame α))
    (hL : rotateLeft x = some y) (hR : rotateRight u = some v) :
    inorderPairs (plug y ctx) = inorderPairs (plug x ctx) ∧
    inorderPairs (plug v ctx) = inorderPairs (plug u ctx) := by
  constructor
  · cases x with
    | nil => simp [rotateLeft] at hL
    | node cx a kx b =>
      cases b with
      | nil => simp [rotateLeft] at hL
      | node cy bl ky br =>
          simp only [rotateLeft, Option.some.injEq] at hL
          subst hL
          exact inorderPairs_plug_congr (by simp [inorderPairs, List.append_assoc]) ctx
  · cases u with
    | nil => simp [rotateRight] at hR
    | node cx a kx b =>
      cases a with
      | nil => simp [rotateRight] at hR
      | node cy al ky ar =>
          simp only [rotateRight, Option.some.injEq] at hR
          subst hR
          exact inorderPairs_plug_congr (by simp [inorderPairs, List.append_assoc]) ctx

theorem rbt_C6_witness :
    inorderPairs (plug (node RED (node RED (nil : Node Int) 0 nil) 1 nil)
        [⟨Dir.left, BLACK, 5, nil⟩]) =
      inorderPairs (plug (node RED (nil : Node Int) 0 (node RED nil 1 nil))
        [⟨Dir.left, BLACK, 5, nil⟩]) ∧
    inorderPairs (plug (node RED (nil : Node Int) 0 (node RED nil 1 nil))
        [⟨Dir.left, BLACK, 5, nil⟩]) =
      inorderPairs (plug (node RED (node RED (nil : Node Int) 0 nil) 1 nil)
        [⟨Dir.left, BLACK, 5, nil⟩]) :=
  rbt_C6 (node RED nil 0 (node RED nil 1 nil))
    (node RED (node RED nil 0 nil) 1 nil)
    (node RED (node RED nil 0 nil) 1 nil)
    (node RED nil 0 (node RED nil 1 nil))
    [⟨Dir.left, BLACK, 5, nil⟩] (by decide) (by decide)

/-- Claim C7: placement descends left exactly when the new key compares
less than the current node's key and right otherwise (the placement walk
equals plain BST insertion with that rule); a key equal to the current
node's key goes into the right subtree; and a duplicate key adds a new
node rather than replacing or rejecting — the tree built from any key
list (duplicates included) stores exactly list-length many keys. -/
theorem rbt_C7 [LinearOrder α] (c : Color) (l r : Node α) (k v : α)
    (keys : List α) :
    plug (node RED nil v nil) (descend (node c l k r) v []) =
      bstIns (node c l k r) v ∧
    (v < k → bstIns (node c l k r) v = node c (bstIns l v) k r) ∧
    (¬ v < k → bstIns (node c l k r) v = node c l k (bstIns r v)) ∧
    bstIns (node c l k r) k = node c l k (bstIns r k) ∧
    (∃ t, insertAll keys = some t ∧ size t = keys.length) := by
  refine ⟨descend_plug _ v [], ?_, ?_, ?_, ?_⟩
  · intro h; simp [bstIns, h]
  · intro h; simp [bstIns, h]
  · simp [bstIns, lt_irrefl]
  · obtain ⟨t, h1, -, hperm⟩ := insertAll_ok keys
    refine ⟨t, h1, ?_⟩
    rw [size_eq_length_inorder]
    exact hperm.length_eq

theorem rbt_C7_witness :
    (plug (node RED nil (3 : Int) nil) (descend (node RED nil 5 nil) 3 []) =
      bstIns (node RED (nil : Node Int) 5 nil) 3) ∧
    ((3 : Int) < 5 → bstIns (node RED (nil : Node Int) 5 nil) 3 =
      node RED (bstIns nil 3) 5 nil) ∧
    (¬ (3 : Int) < 5 → bstIns (node RED (nil : Node Int) 5 nil) 3 =
      node RED nil 5 (bstIns nil 3)) ∧
    bstIns (node RED (nil : Node Int) 5 nil) 5 = node RED nil 5 (bstIns nil 5) ∧
    (∃ t, insertAll ([5, 5] : List Int) = some t ∧ size t = [5, 5].length) :=
  rbt_C7 RED nil nil 5 3 [5, 5]

/-- Claim C8: insert on an empty tree makes the new node the root,
colored BLACK, with both children absent, and does not go through the
fixup engine; every insertion into a non-empty tree does go through
`fixInsertion` — the empty case is the only path that skips it. -/
theorem rbt_C8 [LinearOrder α] (v : α) (c : Color) (l r : Node α) (k : α) :
    insert (nil : Node α) v = some (node BLACK nil v nil) ∧
    insertAll [v] = some (node BLACK nil v nil) ∧
    insert (node c l k r) v =
      fixInsertion (node RED nil v nil) (descend (node c l k r) v []) :=
  ⟨rfl, rfl, rfl⟩

/-- Claim C9: the fixup loop terminates — it executes at most as many
iterations as the parent chain is long (each Case-1 iteration pops two
frames, a Case-2/3 iteration is final), the parent chain built by
placement is bounded by the tree height, and insertion always runs to
completion on every insertion sequence (never reaches a null
dereference). -/
theorem rbt_C9 [LinearOrder α] (keys : List α) (ctx : List (Frame α))
    (t : Node α) (v : α) :
    (insertAll keys).isSome ∧ fixIters ctx ≤ ctx.length ∧
      (descend t v []).length ≤ height t ∧
      fixIters (descend t v []) ≤ height t := by
  have hd : (descend t v []).length ≤ height t := by
    have hdl := descend_length_le t v []
    simpa using hdl
  refine ⟨?_, fixIters_le ctx, hd, le_trans (fixIters_le _) hd⟩
  obtain ⟨t2, h1, -, -⟩ := insertAll_ok keys
  simp [h1]

/-- Claim C10: the rotations inside `fixInsertion` never promote an
absent child. A `none` result of `fixInsertion` (any null dereference,
the rotations' unguarded child promotion included, modeled by the
rotations returning `none` which the fixup propagates) can only arise
from the null-grandparent dereference: at the moment of failure the
remaining parent chain is a single RED frame (a RED root). So the
rotation preconditions hold at every call site; and on actual insertion
paths (where the root is BLACK) even that failure never occurs:
insertion always returns a tree. -/
theorem rbt_C10 [LinearOrder α] (x : Node α) (ctx : List (Frame α))
    (keys : List α) (hx : x ≠ nil) (h : fixInsertion x ctx = none) :
    (∃ k f, List.drop k ctx = [f] ∧ f.color = RED) ∧
      (insertAll keys).isSome := by
  refine ⟨fixInsertion_none ctx x hx h, ?_⟩
  obtain ⟨t2, h1, -, -⟩ := insertAll_ok keys
  simp [h1]

theorem rbt_C10_witness :
    (∃ k f, List.drop k [(⟨Dir.left, RED, (1 : Int), nil⟩ : Frame Int)] = [f] ∧
      f.color = RED) ∧
      (insertAll ([7] : List Int)).isSome :=
  rbt_C10 (node RED nil (0 : Int) nil) [⟨Dir.left, RED, 1, nil⟩] [7]
    (by decide) (by decide)

end RBTApp.Node
